import Mathlib

/-!
# Verification of the MASSpy concentration-sampling core

Shallow embedding of `mass/thermo/conc_sampling/conc_achr.py` and
`mass/thermo/conc_sampling/conc_optgp.py`.  Points of the sampling polytope
are vectors over `ℚ` (idealizing IEEE floats by exact arithmetic); the
external primitives that live in the missing base module
`conc_hr_sampler.py` (the `step` feasibility stepper, `_reproject`, and the
numpy global random stream) are abstracted as parameters bundled in `Prims`,
so every theorem below holds for the actual primitives as a special case.
-/

namespace MassSampling

/-- A point of the sampling space: one rational per solver variable. -/
abbrev V (d : ℕ) := Fin d → ℚ

/-- Sum of a list of points, coordinatewise (`chains.sum(0)` in numpy). -/
def listSum {d : ℕ} (l : List (V d)) : V d := l.foldr (· + ·) 0

/-- Arithmetic mean of a list of points (`warmup.mean(axis=0)`). -/
def listMean {d : ℕ} (l : List (V d)) : V d :=
  fun i => listSum l i / (l.length : ℚ)

/-- The incremental center update of `ConcACHRSampler.__single_iteration`
(conc_achr.py lines 167-169) and of the chain loop in `_sample_chain`
(conc_optgp.py lines 63-64):
`center = (n_samples * center) / (n_samples + 1) + prev / (n_samples + 1)`. -/
def achrCenterUpdate {d : ℕ} (ns : ℕ) (c x : V d) : V d :=
  fun i => ((ns : ℚ) * c i) / ((ns : ℚ) + 1) + x i / ((ns : ℚ) + 1)

/-- The top-level center update of `ConcOptGPSampler.sample`
(conc_optgp.py lines 227-228):
`center = (n_samples * center + chains.sum(0)) / (n_samples + n)`. -/
def optgpCenterUpdate {d : ℕ} (ns n : ℕ) (c total : V d) : V d :=
  fun i => ((ns : ℚ) * c i + total i) / ((ns : ℚ) + (n : ℚ))

/-- Folding a sequence of points into a fresh running center with the
ACHR incremental update, starting from sample count `0` (the count a
freshly constructed sampler has before any iteration). -/
def foldCenter {d : ℕ} (c0 : V d) (xs : List (V d)) : V d × ℕ :=
  xs.foldl (fun p x => (achrCenterUpdate p.2 p.1 x, p.2 + 1)) (c0, 0)

theorem listSum_nil {d : ℕ} : listSum ([] : List (V d)) = 0 := rfl

theorem listSum_cons {d : ℕ} (x : V d) (l : List (V d)) :
    listSum (x :: l) = x + listSum l := rfl

theorem listSum_append {d : ℕ} (a b : List (V d)) :
    listSum (a ++ b) = listSum a + listSum b := by
  induction a with
  | nil => simp [listSum_nil, listSum_cons]
  | cons x xs ih => simp [listSum_cons, ih, add_assoc]

theorem listSum_apply {d : ℕ} (l : List (V d)) (i : Fin d) :
    listSum l i = (l.map (fun v => v i)).sum := by
  induction l with
  | nil => simp [listSum_nil]
  | cons x xs ih => simp [listSum_cons, ih]

/-- One ACHR update of a center that is the mean of `pts` yields the mean of
`pts ++ [x]`. -/
theorem achrCenterUpdate_mean {d : ℕ} (pts : List (V d)) (c x : V d)
    (hc : pts ≠ [] → c = listMean pts) :
    achrCenterUpdate pts.length c x = listMean (pts ++ [x]) := by
  funext i
  by_cases hp : pts = []
  · subst hp
    simp [achrCenterUpdate, listMean, listSum_cons, listSum_nil]
  · have hlen : (pts.length : ℚ) ≠ 0 := by
      exact_mod_cast fun h => hp (List.length_eq_zero.mp (by exact_mod_cast h))
    have hc' := hc hp
    subst hc'
    have hpos : (pts.length : ℚ) + 1 ≠ 0 := by positivity
    simp only [achrCenterUpdate, listMean, listSum_append, listSum_cons,
      listSum_nil, List.length_append, List.length_cons, List.length_nil]
    push_cast
    field_simp

/-- One OptGP batch update of a center that is the mean of `pts` with the sum
of a nonempty batch `newpts` yields the mean of `pts ++ newpts`. -/
theorem optgpCenterUpdate_mean {d : ℕ} (pts newpts : List (V d)) (c : V d)
    (hc : pts ≠ [] → c = listMean pts) (hnew : newpts ≠ []) :
    optgpCenterUpdate pts.length newpts.length c (listSum newpts) =
      listMean (pts ++ newpts) := by
  funext i
  have hnlen : (newpts.length : ℚ) ≠ 0 := by
    exact_mod_cast fun h => hnew (List.length_eq_zero.mp (by exact_mod_cast h))
  by_cases hp : pts = []
  · subst hp
    simp only [optgpCenterUpdate, listMean, List.nil_append, List.length_nil]
    push_cast
    simp
  · have hlen : (pts.length : ℚ) ≠ 0 := by
      exact_mod_cast fun h => hp (List.length_eq_zero.mp (by exact_mod_cast h))
    have hc' := hc hp
    subst hc'
    have hpos : (pts.length : ℚ) + (newpts.length : ℚ) ≠ 0 := by positivity
    simp only [optgpCenterUpdate, listMean, listSum_append, List.length_append]
    push_cast
    field_simp

theorem foldCenter_general {d : ℕ} (xs : List (V d)) :
    ∀ (pts : List (V d)) (c : V d), (pts ≠ [] → c = listMean pts) →
      xs.foldl (fun p x => (achrCenterUpdate p.2 p.1 x, p.2 + 1))
          (c, pts.length) =
        ((xs.foldl (fun p x => (achrCenterUpdate p.2 p.1 x, p.2 + 1))
          (c, pts.length)).1, pts.length + xs.length) ∧
      (pts ++ xs ≠ [] →
        (xs.foldl (fun p x => (achrCenterUpdate p.2 p.1 x, p.2 + 1))
          (c, pts.length)).1 = listMean (pts ++ xs)) := by
  induction xs with
  | nil =>
    intro pts c hc
    refine ⟨by simp, ?_⟩
    intro hne
    simpa using hc (by simpa using hne)
  | cons x xs ih =>
    intro pts c hc
    have hstep : achrCenterUpdate pts.length c x = listMean (pts ++ [x]) :=
      achrCenterUpdate_mean pts c x hc
    have hlen : (pts ++ [x]).length = pts.length + 1 := by simp
    have := ih (pts ++ [x]) (achrCenterUpdate pts.length c x)
      (fun _ => by rw [hstep])
    rw [hlen] at this
    obtain ⟨h1, h2⟩ := this
    constructor
    · simp only [List.foldl_cons]
      rw [h1]
      simp [Nat.add_assoc, Nat.add_comm 1 xs.length]
    · intro _
      simp only [List.foldl_cons]
      have h2' := h2 (by simp)
      rw [h2']
      simp [List.append_assoc]

/-- The abstract primitives supplied by the missing base module
`conc_hr_sampler.py` and by numpy's seeded global random stream.  `seedRng`
is `np.random.seed` (seed to initial stream state), `randint` is
`np.random.randint(bound)` (stream state to drawn value and next state),
`stepF` is the `step` feasibility stepper (`point`, `direction`, optional
`fraction` argument, stream state to new point and next state), and
`reproject` is `ConcHRSampler._reproject`.  All theorems hold for every
choice of these primitives, in particular for the real ones. -/
structure Prims (d : ℕ) where
  seedRng : ℕ → ℕ
  randint : ℕ → ℕ → ℕ × ℕ
  stepF : V d → V d → Option ℚ → ℕ → V d × ℕ
  reproject : V d → V d

/-- The mutable per-chain state: current point `prev`, running `center`,
sample count `ns`, and the position of the random stream. -/
structure ChainState (d : ℕ) where
  prev : V d
  center : V d
  ns : ℕ
  rng : ℕ

/-- The shared recording loop of `ConcACHRSampler.sample` (conc_achr.py lines
130-136) and of `_sample_chain` (conc_optgp.py lines 49-65):
`for i in range(1, total + 1): state = T(state); if i % t == 0: record`.
`rem` counts the remaining iterations and `i` is the Python loop index. -/
def loopGo {S α : Type} (T : S → S) (pv : S → α) (t : ℕ) :
    ℕ → ℕ → S → List α → List α × S
  | 0, _, s, buf => (buf, s)
  | rem + 1, i, s, buf =>
      let s' := T s
      let buf' := if i % t = 0 then buf ++ [pv s'] else buf
      loopGo T pv t rem (i + 1) s' buf'

/-- Run the recording loop for `t * n` iterations starting at index 1 with an
empty buffer, exactly as both `sample` loops do. -/
def runSampleLoop {S α : Type} (T : S → S) (pv : S → α) (t n : ℕ) (s : S) :
    List α × S :=
  loopGo T pv t (t * n) 1 s []

theorem loopGo_within_block {S α : Type} (T : S → S) (pv : S → α) (t : ℕ) :
    ∀ (r : ℕ), 1 ≤ r → r ≤ t → ∀ (k q : ℕ) (s : S) (buf : List α),
      loopGo T pv t (t * k + r) (t * (q + 1) - r + 1) s buf =
        loopGo T pv t (t * k) (t * (q + 1) + 1) (T^[r] s)
          (buf ++ [pv (T^[r] s)]) := by
  intro r
  induction r with
  | zero => intro h; omega
  | succ r ih =>
    intro _ hrt k q s buf
    have hexp : t * (q + 1) = t * q + t := by ring
    by_cases hr : r = 0
    · subst hr
      rw [show t * (q + 1) - (0 + 1) + 1 = t * (q + 1) by omega]
      show loopGo T pv t (t * k + 1) (t * (q + 1)) s buf = _
      simp only [loopGo]
      rw [if_pos (Nat.mul_mod_right t (q + 1))]
      simp [Function.iterate_one]
    · have hi : t * (q + 1) - (r + 1) + 1 = t * q + (t - r) := by omega
      rw [hi]
      have hmod : (t * q + (t - r)) % t = t - r := by
        rw [Nat.mul_add_mod]
        exact Nat.mod_eq_of_lt (by omega)
      have hmodne : ¬((t * q + (t - r)) % t = 0) := by rw [hmod]; omega
      show loopGo T pv t ((t * k + r) + 1) (t * q + (t - r)) s buf = _
      simp only [loopGo]
      rw [if_neg hmodne]
      rw [show t * q + (t - r) + 1 = t * (q + 1) - r + 1 by omega]
      rw [ih (by omega) (by omega) k q (T s) buf]
      rw [← Function.iterate_succ_apply]

theorem loopGo_blocks {S α : Type} (T : S → S) (pv : S → α) (t : ℕ)
    (ht : 1 ≤ t) :
    ∀ (k q : ℕ) (s : S) (buf : List α),
      loopGo T pv t (t * k) (t * q + 1) s buf =
        (buf ++ (List.range k).map (fun j => pv (T^[(j + 1) * t] s)),
          T^[t * k] s) := by
  intro k
  induction k with
  | zero =>
    intro q s buf
    simp only [Nat.mul_zero, List.range_zero, List.map_nil, List.append_nil,
      Function.iterate_zero, id]
    rfl
  | succ k ih =>
    intro q s buf
    have hsplit : t * (k + 1) = t * k + t := by ring
    have hexp : t * (q + 1) = t * q + t := by ring
    rw [hsplit]
    rw [show t * q + 1 = t * (q + 1) - t + 1 by omega]
    rw [loopGo_within_block T pv t t ht le_rfl k q s buf]
    rw [ih (q + 1) (T^[t] s) (buf ++ [pv (T^[t] s)])]
    have hiter : ∀ j : ℕ, T^[(j + 1) * t] (T^[t] s) = T^[(j + 1 + 1) * t] s := by
      intro j
      rw [← Function.iterate_add_apply]
      congr 1
      ring
    refine Prod.ext ?_ ?_
    · simp only [List.range_succ_eq_map, List.map_cons, List.map_map,
        List.append_assoc, List.singleton_append, zero_add, one_mul]
      congr 1
      congr 1
      refine List.map_congr_left ?_
      intro j hj
      simp only [Function.comp_apply]
      rw [hiter j]
    · rw [← Function.iterate_add_apply]

/-- The recording loop, run for `t * n` iterations: it retains exactly every
`t`-th generated state (projected by `pv`), in temporal order, and its final
state is the `t * n`-th iterate of the transition. -/
theorem runSampleLoop_eq {S α : Type} (T : S → S) (pv : S → α) (t n : ℕ)
    (s : S) (ht : 1 ≤ t) :
    runSampleLoop T pv t n s =
      ((List.range n).map (fun j => pv (T^[(j + 1) * t] s)), T^[t * n] s) := by
  unfold runSampleLoop
  rw [show (1 : ℕ) = t * 0 + 1 by ring]
  rw [loopGo_blocks T pv t ht n 0 s []]
  simp

/-- Translation of `ConcACHRSampler.__single_iteration` (conc_achr.py lines 148-170): draw a
warmup row, step from `prev` along `warmup[pi] - center`, fold the new point
into the running center, and advance the sample count. -/
def achrSingleIteration {d : ℕ} (P : Prims d) (warmup : List (V d))
    (st : ChainState d) : ChainState d :=
  let drawn := P.randint warmup.length st.rng
  let delta := warmup.getD drawn.1 0 - st.center
  let stepped := P.stepF st.prev delta none drawn.2
  { prev := stepped.1
    center := achrCenterUpdate st.ns st.center stepped.1
    ns := st.ns + 1
    rng := stepped.2 }

/-- The loop of `ConcACHRSampler.sample` (conc_achr.py lines 128-136):
`thinning * n` calls of `__single_iteration`, retaining `prev` every
`thinning` iterations. -/
def achrSampleRaw {d : ℕ} (P : Prims d) (warmup : List (V d)) (t n : ℕ)
    (st : ChainState d) : List (V d) × ChainState d :=
  runSampleLoop (achrSingleIteration P warmup) ChainState.prev t n st

/-- A full sequential run: `ConcACHRSampler.__init__` (conc_achr.py lines
91-98: `prev = center = warmup.mean(axis=0)`, `np.random.seed(seed)`)
followed by `sample(n)`.  Modelled from the spec for the part of
`ConcHRSampler.__init__` that is not under src: a fresh sampler starts with
`n_samples = 0` ("`n_samples` ... equals the number of points folded into
the running center"). -/
def achrRun {d : ℕ} (P : Prims d) (warmup : List (V d)) (seed t n : ℕ) :
    List (V d) × ChainState d :=
  let c := listMean warmup
  achrSampleRaw P warmup t n
    { prev := c, center := c, ns := 0, rng := P.seedRng seed }

/-- The state of a `ConcOptGPSampler` that `_sample_chain` and `sample` read:
warmup matrix, thinning factor, reprojection cadence `nproj`, global sample
count, retry count, shared center, base seed `_seed`, the problem's
homogeneity flag, and the worker count. -/
structure OptGPSampler (d : ℕ) where
  warmup : List (V d)
  thinning : ℕ
  nproj : ℕ
  nSamples : ℕ
  retries : ℕ
  center : V d
  seed : ℕ
  homogeneous : Bool
  processes : ℕ

/-- The per-chain seed of `_sample_chain` (conc_optgp.py line 40):
`(sampler._seed + idx) % np.iinfo(np.int32).max`, and
`np.iinfo(np.int32).max = 2147483647`. -/
def chainSeed (seed idx : ℕ) : ℕ := (seed + idx) % 2147483647

/-- One iteration of the chain loop of `_sample_chain` (conc_optgp.py lines
49-65): draw a warmup row, step, reproject `prev` and the (chain-local)
`center` together when the problem is homogeneous and
`n_samples * thinning % nproj == 0`, fold the new point into the local
center, advance the local count. -/
def chainBody {d : ℕ} (P : Prims d) (s : OptGPSampler d)
    (st : ChainState d) : ChainState d :=
  let drawn := P.randint s.warmup.length st.rng
  let delta := s.warmup.getD drawn.1 0 - st.center
  let stepped := P.stepF st.prev delta none drawn.2
  let reprojected :=
    if s.homogeneous = true ∧ (st.ns * s.thinning) % s.nproj = 0 then
      (P.reproject stepped.1, P.reproject st.center)
    else (stepped.1, st.center)
  { prev := reprojected.1
    center := achrCenterUpdate st.ns reprojected.2 reprojected.1
    ns := st.ns + 1
    rng := stepped.2 }

/-- The body of `_sample_chain` after the numpy stream was seeded
(conc_optgp.py lines 41-67): pick a random warmup row, pull it toward the
shared center with `step(sampler, center, prev - center, 0.95)`, start the
local count at `max(sampler.n_samples, 1)`, then run the recording loop.
The local `center` and `n_samples` are locals of the worker: the sampler
itself is left unchanged, hence returned as-is in the second component. -/
def sampleChainFrom {d : ℕ} (P : Prims d) (s : OptGPSampler d) (n r0 : ℕ) :
    (ℕ × List (V d)) × OptGPSampler d :=
  let center := s.center
  let drawn := P.randint s.warmup.length r0
  let w := s.warmup.getD drawn.1 0
  let stepped := P.stepF center (w - center) (some (19 / 20)) drawn.2
  let ns0 := max s.nSamples 1
  let run := runSampleLoop (chainBody P s) ChainState.prev s.thinning n
    { prev := stepped.1, center := center, ns := ns0, rng := stepped.2 }
  ((s.retries, run.1), s)

/-- Translation of `_sample_chain(args)` (conc_optgp.py lines 28-67): seed the worker's
stream with `(sampler._seed + idx) % INT32_MAX` and run the chain. -/
def sampleChain {d : ℕ} (P : Prims d) (s : OptGPSampler d) (args : ℕ × ℕ) :
    (ℕ × List (V d)) × OptGPSampler d :=
  sampleChainFrom P s args.1 (P.seedRng (chainSeed s.seed args.2))

/-- Translation of `ConcOptGPSampler.sample(n)` up to the exponentiation step
(conc_optgp.py lines 203-229): with more than one process, round `n` up to
`ceil(n / processes) * processes`, run one chain per process index and stack
their samples; with one process, run a single chain in the calling process
with the unrounded `n`.  Afterwards fold all new points into the global
center, add the chains' retry counts (parallel branch only), and advance
`n_samples` by the (possibly rounded) `n`.  Returns the stacked log-space
rows and the updated sampler. -/
def optgpSample {d : ℕ} (P : Prims d) (s : OptGPSampler d) (n : ℕ) :
    List (V d) × OptGPSampler d :=
  if 1 < s.processes then
    let nProcess := (n + s.processes - 1) / s.processes
    let n' := nProcess * s.processes
    let results := (List.range s.processes).map
      (fun idx => (sampleChain P s (nProcess, idx)).1)
    let chains := (results.map Prod.snd).flatten
    let retries' := s.retries + (results.map Prod.fst).sum
    (chains,
      { s with
        retries := retries'
        center := optgpCenterUpdate s.nSamples n' s.center (listSum chains)
        nSamples := s.nSamples + n' })
  else
    let results := (sampleChain P s (n, 0)).1
    let chains := results.2
    (chains,
      { s with
        center := optgpCenterUpdate s.nSamples n s.center (listSum chains)
        nSamples := s.nSamples + n })

/-- The log-space value a column name denotes in a row: the coordinate at
the name's position in the solver's variable list (`pd.DataFrame(samples,
columns=names)` keyed by `df.loc[:, name]`). -/
noncomputable def colValue {d : ℕ} (names : List String) (p : V d)
    (nm : String) : ℝ :=
  if h : names.indexOf nm < d then ((p ⟨names.indexOf nm, h⟩ : ℚ) : ℝ) else 0

/-- The columns of the returned table: the solver variable names, or the
`included_metabolites` list when `concs` is true. -/
def tableCols (names included : List String) (concs : Bool) : List String :=
  if concs then included else names

/-- The common postprocessing of both samplers (conc_achr.py lines 138-146,
conc_optgp.py lines 231-239): build a table keyed by the solver variable
names, exponentiate every entry (`df.apply(np.exp)`), and when `concs` is
true restrict the columns to `included_metabolites`
(`df.loc[:, included_metabolites]`). -/
noncomputable def concTable {d : ℕ} (names included : List String)
    (concs : Bool) (chains : List (V d)) : List String × List (List ℝ) :=
  let cols := tableCols names included concs
  (cols, chains.map (fun p => cols.map (fun nm => Real.exp (colValue names p nm))))

/-- Translation of `ConcOptGPSampler.__getstate__` (conc_optgp.py lines 242-252): copy the
attribute dictionary and delete the `model` entry.  The dictionary is
modelled as an association list with distinct keys. -/
def getstate {A : Type} (dd : List (String × A)) : List (String × A) :=
  dd.eraseP (fun kv => kv.1 == "model")

/-- Modelled from the spec: the chain as the spec describes it, with the
per-step incremental-mean update "applied to the *shared* center (not a
private copy)", i.e. every accepted step writes the running center back into
the sampler visible to all workers; the returned sampler therefore carries
the chain's final center. -/
def sampleChainSharedSpec {d : ℕ} (P : Prims d) (s : OptGPSampler d)
    (args : ℕ × ℕ) : (ℕ × List (V d)) × OptGPSampler d :=
  let center := s.center
  let r0 := P.seedRng (chainSeed s.seed args.2)
  let drawn := P.randint s.warmup.length r0
  let w := s.warmup.getD drawn.1 0
  let stepped := P.stepF center (w - center) (some (19 / 20)) drawn.2
  let ns0 := max s.nSamples 1
  let run := runSampleLoop (chainBody P s) ChainState.prev s.thinning args.1
    { prev := stepped.1, center := center, ns := ns0, rng := stepped.2 }
  ((s.retries, run.1), { s with center := run.2.center })

/-- Modelled from the spec: one chain iteration with the reprojection applied
when "the global sample count crosses a multiple of `nproj`", read as the
sample counter being divisible by `nproj`; everything else is as in
`chainBody`. -/
def chainBodyProjSpec {d : ℕ} (P : Prims d) (s : OptGPSampler d)
    (st : ChainState d) : ChainState d :=
  let drawn := P.randint s.warmup.length st.rng
  let delta := s.warmup.getD drawn.1 0 - st.center
  let stepped := P.stepF st.prev delta none drawn.2
  let reprojected :=
    if s.homogeneous = true ∧ st.ns % s.nproj = 0 then
      (P.reproject stepped.1, P.reproject st.center)
    else (stepped.1, st.center)
  { prev := reprojected.1
    center := achrCenterUpdate st.ns reprojected.2 reprojected.1
    ns := st.ns + 1
    rng := stepped.2 }

/-- Modelled from the spec: `_sample_chain` with the reprojection schedule of
`chainBodyProjSpec` in place of the code's condition. -/
def sampleChainProjSpec {d : ℕ} (P : Prims d) (s : OptGPSampler d)
    (args : ℕ × ℕ) : (ℕ × List (V d)) × OptGPSampler d :=
  let center := s.center
  let r0 := P.seedRng (chainSeed s.seed args.2)
  let drawn := P.randint s.warmup.length r0
  let w := s.warmup.getD drawn.1 0
  let stepped := P.stepF center (w - center) (some (19 / 20)) drawn.2
  let ns0 := max s.nSamples 1
  let run := runSampleLoop (chainBodyProjSpec P s) ChainState.prev s.thinning
    args.1 { prev := stepped.1, center := center, ns := ns0, rng := stepped.2 }
  ((s.retries, run.1), s)

/-- A concrete, executable instantiation of the abstract primitives over one
variable, used for evaluating the model at concrete inputs: the stream state
is a counter, `randint` reduces it modulo the bound, the stepper moves the
full direction, and reprojection is the identity. -/
def trivPrims : Prims 1 where
  seedRng := fun seed => seed
  randint := fun bound r => (r % bound, r + 1)
  stepF := fun p delta _ r => (p + delta, r + 1)
  reproject := fun v => v

/-- Like `trivPrims` but with a reprojection that scales by 10, making every
reprojection call observable in the chain output. -/
def projPrims : Prims 1 where
  seedRng := fun seed => seed
  randint := fun bound r => (r % bound, r + 1)
  stepF := fun p delta _ r => (p + delta, r + 1)
  reproject := fun v => fun i => 10 * v i

/-- A concrete sampler state with an inhomogeneous problem, one warmup point
at 2, center at the origin and thinning 1. -/
def sampler0 : OptGPSampler 1 where
  warmup := [fun _ => 2]
  thinning := 1
  nproj := 10
  nSamples := 0
  retries := 0
  center := fun _ => 0
  seed := 0
  homogeneous := false
  processes := 2

/-- A concrete homogeneous sampler state with thinning 2, `nproj = 4` and a
global sample count of 2, so the chain-local counter starts at 2. -/
def sampler7 : OptGPSampler 1 where
  warmup := [fun _ => 2]
  thinning := 2
  nproj := 4
  nSamples := 2
  retries := 0
  center := fun _ => 0
  seed := 0
  homogeneous := true
  processes := 2

/-- A concrete sampler state with 3 processes and thinning 1. -/
def sampler83 : OptGPSampler 1 where
  warmup := [fun _ => 1]
  thinning := 1
  nproj := 10
  nSamples := 0
  retries := 0
  center := fun _ => 0
  seed := 0
  homogeneous := false
  processes := 3

/-- A fixed chain start state over one variable. -/
def st0 : ChainState 1 where
  prev := fun _ => 0
  center := fun _ => 0
  ns := 0
  rng := 0

/-- C1: after every center update the running center is the exact arithmetic
mean of exactly `n_samples` folded-in points, maintained by the incremental
formula, and `n_samples` grows by exactly the number of points folded in
(hence is monotonically non-decreasing): the ACHR per-point update
(`ConcACHRSampler.__single_iteration`) turns the mean of `pts` into the mean
of `pts ++ [x]` while the count goes from `pts.length` to
`(pts ++ [x]).length`; the top level of `ConcOptGPSampler.sample` turns it
into the mean of `pts ++ newpts` while the count grows by `newpts.length`;
and iterating the ACHR update from a fresh sampler (count 0) over any
nonempty sequence yields exactly its mean and its length. -/
theorem claim1_center_incremental_mean {d : ℕ}
    (pts newpts xs : List (V d)) (x c c0 : V d) (ns : ℕ)
    (hns : ns = pts.length) (hc : pts ≠ [] → c = listMean pts)
    (hnew : newpts ≠ []) (hxs : xs ≠ []) :
    achrCenterUpdate ns c x = listMean (pts ++ [x]) ∧
    ns + 1 = (pts ++ [x]).length ∧ ns ≤ ns + 1 ∧
    optgpCenterUpdate ns newpts.length c (listSum newpts) =
      listMean (pts ++ newpts) ∧
    ns + newpts.length = (pts ++ newpts).length ∧ ns ≤ ns + newpts.length ∧
    (foldCenter c0 xs).1 = listMean xs ∧ (foldCenter c0 xs).2 = xs.length := by
  subst hns
  obtain ⟨h1, h2⟩ := foldCenter_general xs [] c0 (fun hh => absurd rfl hh)
  refine ⟨achrCenterUpdate_mean pts c x hc, by simp, Nat.le_succ _,
    optgpCenterUpdate_mean pts newpts c hc hnew, by simp,
    Nat.le_add_right _ _, ?_, ?_⟩
  · have hmean := h2 (by simpa using hxs)
    simpa [foldCenter] using hmean
  · have := congrArg Prod.snd h1
    simpa [foldCenter] using this

/-- Two concrete points to fold into a fresh center. -/
def xs0 : List (V 1) := [fun _ => 3, fun _ => 5]

/-- A concrete initial center value. -/
def c70 : V 1 := fun _ => 7

theorem claim1_center_incremental_mean_witness :
    (foldCenter c70 xs0).1 = listMean xs0 ∧ (foldCenter c70 xs0).2 = 2 :=
  (claim1_center_incremental_mean ([] : List (V 1))
    ([fun _ => 2] : List (V 1)) xs0 (fun _ => 1) (fun _ => 0) c70 0
    rfl (fun h => absurd rfl h) (by simp) (by simp [xs0])).2.2.2.2.2.2

/-- C2 counterexample: in `_sample_chain` the incremental-mean update is
applied to a chain-local variable, not to the shared `sampler.center`.  On a
concrete run with one accepted step, the sampler coming out of the chain is
unchanged (shared center still 0), while the chain the claim describes (the
update written through to the shared center, `sampleChainSharedSpec`) would
have left the shared center at 2. -/
theorem claim2_counterexample :
    (sampleChain trivPrims sampler0 (1, 0)).2 = sampler0 ∧
    (sampleChain trivPrims sampler0 (1, 0)).2.center 0 = 0 ∧
    (sampleChainSharedSpec trivPrims sampler0 (1, 0)).2.center 0 = 2 := by
  refine ⟨rfl, by norm_num [sampleChain, sampleChainFrom, sampler0], ?_⟩
  norm_num [sampleChainSharedSpec, sampler0, trivPrims, chainSeed]
  rw [runSampleLoop_eq _ _ _ _ _ (le_refl 1)]
  norm_num [chainBody, trivPrims, sampler0, achrCenterUpdate,
    Function.iterate_one, List.getD, Nat.zero_max]

/-- C2 amended: each chain applies its per-step incremental-mean update to a
chain-private copy of the center; the shared `sampler.center` is read once
at the start of the chain and is never written by the chain (the sampler
returned by `_sample_chain`'s worker is the one it was given), and the
shared center is updated exactly once per `sample` call, at the top level,
by the batch formula over all stacked chain points. -/
theorem claim2_amended {d : ℕ} (P : Prims d) (s : OptGPSampler d)
    (args : ℕ × ℕ) (n : ℕ) :
    (sampleChain P s args).2 = s ∧
    (optgpSample P s n).2.center =
      optgpCenterUpdate s.nSamples
        (if 1 < s.processes
          then ((n + s.processes - 1) / s.processes) * s.processes else n)
        s.center (listSum (optgpSample P s n).1) := by
  refine ⟨rfl, ?_⟩
  by_cases h : 1 < s.processes <;>
    simp [optgpSample, h]

/-- One chain produces exactly as many sample rows as it was asked for. -/
theorem sampleChain_samples_length {d : ℕ} (P : Prims d) (s : OptGPSampler d)
    (m idx : ℕ) (ht : 1 ≤ s.thinning) :
    ((sampleChain P s (m, idx)).1.2).length = m := by
  simp only [sampleChain, sampleChainFrom]
  rw [runSampleLoop_eq _ _ _ _ _ ht]
  simp

/-- The row count of the parallel branch of `ConcOptGPSampler.sample`. -/
theorem optgp_rows {d : ℕ} (P : Prims d) (s : OptGPSampler d) (n : ℕ)
    (hp : 1 < s.processes) (ht : 1 ≤ s.thinning) :
    (optgpSample P s n).1.length =
      ((n + s.processes - 1) / s.processes) * s.processes := by
  have hlen : ∀ m idx : ℕ, ((sampleChain P s (m, idx)).1.2).length = m :=
    fun m idx => sampleChain_samples_length P s m idx ht
  simp only [optgpSample, if_pos hp]
  rw [List.length_flatten, List.map_map, List.map_map]
  simp only [Function.comp_def, hlen]
  rw [List.map_const', List.sum_replicate, List.length_range, smul_eq_mul,
    Nat.mul_comm]

/-- C3: with `P > 1` workers, `ConcOptGPSampler.sample(n)` returns exactly
`ceil(n / P) * P` rows, each of the `P` chains producing `ceil(n / P)`
points; in particular `n = 8` with `processes = 3` returns exactly 9 rows. -/
theorem claim3_parallel_rounding {d : ℕ} (P : Prims d) (s : OptGPSampler d)
    (n : ℕ) (hn : 1 ≤ n) (hp : 1 < s.processes) (ht : 1 ≤ s.thinning) :
    (optgpSample P s n).1.length =
      ((n + s.processes - 1) / s.processes) * s.processes ∧
    (∀ idx : ℕ,
      ((sampleChain P s ((n + s.processes - 1) / s.processes, idx)).1.2).length
        = (n + s.processes - 1) / s.processes) ∧
    (optgpSample trivPrims sampler83 8).1.length = 9 := by
  refine ⟨optgp_rows P s n hp ht,
    fun idx => sampleChain_samples_length P s _ idx ht, ?_⟩
  rw [optgp_rows trivPrims sampler83 8 (by norm_num [sampler83]) le_rfl]
  rfl

theorem claim3_parallel_rounding_witness :
    (optgpSample trivPrims sampler83 8).1.length =
      ((8 + sampler83.processes - 1) / sampler83.processes) *
        sampler83.processes :=
  (claim3_parallel_rounding trivPrims sampler83 8 (by decide)
    (by decide) (by decide)).1

/-- C4: `ConcACHRSampler.sample(n)` performs exactly `thinning * n` single
iterations, returns a buffer of exactly `n` rows, and row `j` (1-based) is
the chain's `prev` immediately after iteration `j * thinning`: the buffer is
the temporal sequence of every `thinning`-th iterate. -/
theorem claim4_achr_thinning {d : ℕ} (P : Prims d) (warmup : List (V d))
    (t n : ℕ) (st : ChainState d) (ht : 1 ≤ t) (hn : 1 ≤ n) :
    (achrSampleRaw P warmup t n st).1 =
      (List.range n).map
        (fun j => ((achrSingleIteration P warmup)^[(j + 1) * t] st).prev) ∧
    (achrSampleRaw P warmup t n st).1.length = n ∧
    (achrSampleRaw P warmup t n st).2 =
      (achrSingleIteration P warmup)^[t * n] st := by
  unfold achrSampleRaw
  rw [runSampleLoop_eq _ _ _ _ _ ht]
  exact ⟨rfl, by simp, rfl⟩

theorem claim4_achr_thinning_witness :
    (achrSampleRaw trivPrims [fun _ => 2] 2 3 st0).1 =
      (List.range 3).map
        (fun j =>
          ((achrSingleIteration trivPrims [fun _ => 2])^[(j + 1) * 2]
            st0).prev) ∧
    (achrSampleRaw trivPrims [fun _ => 2] 2 3 st0).1.length = 3 ∧
    (achrSampleRaw trivPrims [fun _ => 2] 2 3 st0).2 =
      (achrSingleIteration trivPrims [fun _ => 2])^[2 * 3] st0 :=
  claim4_achr_thinning trivPrims [fun _ => 2] 2 3 st0 (by decide)
    (by decide)

/-- C6: two sequential ACHR runs constructed with the same seed, the same
warmup/polytope data and the same `n` (and thinning) produce identical
outputs: `achrRun` is a pure function of these inputs, so equal inputs give
equal sample lists, for any instantiation of the solver primitives. -/
theorem claim6_achr_determinism {d : ℕ} (P : Prims d)
    (warmup1 warmup2 : List (V d)) (seed1 seed2 t1 t2 n1 n2 : ℕ)
    (hw : warmup1 = warmup2) (hs : seed1 = seed2) (ht : t1 = t2)
    (hn : n1 = n2) :
    achrRun P warmup1 seed1 t1 n1 = achrRun P warmup2 seed2 t2 n2 := by
  subst hw hs ht hn
  rfl

theorem claim6_achr_determinism_witness :
    achrRun trivPrims [fun _ => 2] 5 2 3 = achrRun trivPrims [fun _ => 2] 5 2 3 :=
  claim6_achr_determinism trivPrims [fun _ => 2] [fun _ => 2] 5 5 2 2 3 3
    rfl rfl rfl rfl

/-- C5: every value of the returned table is the exponential of the
corresponding log-space chain coordinate, hence strictly positive, and
`log` recovers the log-space value; the columns are exactly the solver
variable names, restricted to `included_metabolites` when `concs = true`. -/
theorem claim5_exp_round_trip {d : ℕ} (names included : List String)
    (concs : Bool) (chains : List (V d)) (hd : names.length = d)
    (hsub : ∀ nm ∈ included, nm ∈ names) (i j : ℕ) (hi : i < chains.length)
    (hj : j < (tableCols names included concs).length) :
    (concTable names included concs chains).1 =
      tableCols names included concs ∧
    (concTable names included concs chains).2.length = chains.length ∧
    ((concTable names included concs chains).2.getD i []).getD j 0 =
      Real.exp (colValue names (chains.getD i 0)
        ((tableCols names included concs).getD j "")) ∧
    0 < ((concTable names included concs chains).2.getD i []).getD j 0 ∧
    Real.log
        (((concTable names included concs chains).2.getD i []).getD j 0) =
      colValue names (chains.getD i 0)
        ((tableCols names included concs).getD j "") ∧
    ∃ k : Fin d,
      colValue names (chains.getD i 0)
          ((tableCols names included concs).getD j "") =
        (((chains.getD i 0) k : ℚ) : ℝ) ∧
      names.getD k.1 "" = (tableCols names included concs).getD j "" := by
  have hrow : (concTable names included concs chains).2.getD i [] =
      (tableCols names included concs).map
        (fun nm => Real.exp (colValue names (chains.getD i 0) nm)) := by
    have h2 : (concTable names included concs chains).2 =
        chains.map (fun p => (tableCols names included concs).map
          (fun nm => Real.exp (colValue names p nm))) := rfl
    rw [h2, List.getD_eq_getElem _ _ (by simpa using hi), List.getElem_map,
      List.getD_eq_getElem chains 0 hi]
  have hentry : ((concTable names included concs chains).2.getD i []).getD j 0
      = Real.exp (colValue names (chains.getD i 0)
          ((tableCols names included concs).getD j "")) := by
    rw [hrow, List.getD_eq_getElem _ _ (by simpa using hj), List.getElem_map,
      List.getD_eq_getElem _ _ hj]
  have hnm : (tableCols names included concs).getD j "" ∈ names := by
    have hmem : (tableCols names included concs).getD j "" ∈
        tableCols names included concs := by
      rw [List.getD_eq_getElem _ _ hj]
      exact List.getElem_mem hj
    cases concs with
    | false => simpa [tableCols] using hmem
    | true => exact hsub _ (by simpa [tableCols] using hmem)
  have hidx : names.indexOf ((tableCols names included concs).getD j "") <
      names.length := List.indexOf_lt_length.mpr hnm
  have hidx' : names.indexOf ((tableCols names included concs).getD j "") < d :=
    hd ▸ hidx
  refine ⟨rfl, by simp [concTable], hentry, ?_, ?_, ?_⟩
  · rw [hentry]; exact Real.exp_pos _
  · rw [hentry, Real.log_exp]
  · refine ⟨⟨names.indexOf ((tableCols names included concs).getD j ""),
      hidx'⟩, ?_, ?_⟩
    · unfold colValue
      rw [dif_pos hidx']
    · rw [List.getD_eq_getElem _ _ hidx]
      exact List.getElem_indexOf hidx

/-- A concrete two-variable log-space point, with value `k` at coordinate
`k`. -/
def pt2 : V 2 := fun k => (k.1 : ℚ)

theorem claim5_exp_round_trip_witness :
    0 < ((concTable ["a", "b"] ["b"] true [pt2]).2.getD 0 []).getD 0 0 ∧
    Real.log (((concTable ["a", "b"] ["b"] true [pt2]).2.getD 0 []).getD 0 0)
      = colValue ["a", "b"] (([pt2] : List (V 2)).getD 0 0)
          ((tableCols ["a", "b"] ["b"] true).getD 0 "") :=
  ⟨(claim5_exp_round_trip ["a", "b"] ["b"] true [pt2] (by decide) (by decide)
      0 0 (by decide) (by decide)).2.2.2.1,
    (claim5_exp_round_trip ["a", "b"] ["b"] true [pt2] (by decide) (by decide)
      0 0 (by decide) (by decide)).2.2.2.2.1⟩

theorem loopGo_congr {S α : Type} (T1 T2 : S → S) (pv : S → α) (t : ℕ)
    (h : ∀ x, T1 x = T2 x) :
    ∀ (rem i : ℕ) (s : S) (buf : List α),
      loopGo T1 pv t rem i s buf = loopGo T2 pv t rem i s buf := by
  intro rem
  induction rem with
  | zero => intro i s buf; rfl
  | succ rem ih =>
    intro i s buf
    simp only [loopGo]
    rw [h s]
    exact ih _ _ _

/-- C7 counterexample: the chain's reprojection condition is
`n_samples * thinning % nproj == 0` on the chain-local counter, not "the
sample count is at a multiple of `nproj`".  With `thinning = 2`,
`nproj = 4` and the counter starting at 2, the code reprojects at the first
iteration (`2 * 2 % 4 == 0`) although the count 2 is not a multiple of 4;
with a reprojection scaling by 10 the two schedules produce different first
samples (86/3 versus 14/3), so the chain as the claim describes it
(`sampleChainProjSpec`) disagrees with the code. -/
theorem claim7_counterexample :
    ((sampleChain projPrims sampler7 (1, 0)).1.2.getD 0 0) 0 = 86 / 3 ∧
    ((sampleChainProjSpec projPrims sampler7 (1, 0)).1.2.getD 0 0) 0 = 14 / 3 ∧
    sampleChain projPrims sampler7 (1, 0) ≠
      sampleChainProjSpec projPrims sampler7 (1, 0) := by
  have hit2 : ∀ (T : ChainState 1 → ChainState 1) (x : ChainState 1),
      T^[2] x = T (T x) := fun T x => rfl
  have h1 : ((sampleChain projPrims sampler7 (1, 0)).1.2.getD 0 0) 0
      = 86 / 3 := by
    norm_num [sampleChain, sampleChainFrom, sampler7, projPrims, chainSeed]
    rw [runSampleLoop_eq _ _ _ _ _ (by norm_num)]
    norm_num [hit2, chainBody, projPrims, sampler7, achrCenterUpdate,
      List.getD]
  have h2 : ((sampleChainProjSpec projPrims sampler7 (1, 0)).1.2.getD 0 0) 0
      = 14 / 3 := by
    norm_num [sampleChainProjSpec, sampler7, projPrims, chainSeed]
    rw [runSampleLoop_eq _ _ _ _ _ (by norm_num)]
    norm_num [hit2, chainBodyProjSpec, projPrims, sampler7, achrCenterUpdate,
      List.getD]
  refine ⟨h1, h2, ?_⟩
  intro heq
  have := congrArg (fun r => (r.1.2.getD 0 (0 : V 1)) 0) heq
  simp only at this
  rw [h1, h2] at this
  norm_num at this

/-- C7 amended: in every parallel chain, reprojection of the current point
and the (chain-local) center happens together exactly at the iterations
where the chain-local sample counter times the thinning factor is divisible
by `nproj` (the counter starts at `max(sampler.n_samples, 1)` and grows by
one per step); at every other step no reprojection is applied, and when the
polytope is not homogeneous the chain never consults the reprojector at
all. -/
theorem claim7_amended {d : ℕ} (P P1 P2 : Prims d) (s : OptGPSampler d)
    (args : ℕ × ℕ) (st : ChainState d)
    (hsr : P1.seedRng = P2.seedRng) (hri : P1.randint = P2.randint)
    (hst : P1.stepF = P2.stepF) :
    (s.homogeneous = false → sampleChain P1 s args = sampleChain P2 s args) ∧
    (s.homogeneous = true → (st.ns * s.thinning) % s.nproj = 0 →
      ∃ (p : V d) (r : ℕ), chainBody P s st =
        { prev := P.reproject p
          center := achrCenterUpdate st.ns (P.reproject st.center)
            (P.reproject p)
          ns := st.ns + 1, rng := r }) ∧
    (¬(st.ns * s.thinning) % s.nproj = 0 →
      chainBody P1 s st = chainBody P2 s st) := by
  have hbody : ∀ (x : ChainState d),
      (s.homogeneous = false ∨ ¬(x.ns * s.thinning) % s.nproj = 0) →
      chainBody P1 s x = chainBody P2 s x := by
    intro x hx
    have hcond : ¬(s.homogeneous = true ∧ (x.ns * s.thinning) % s.nproj = 0) := by
      rintro ⟨hh, hmod⟩
      rcases hx with hx | hx
      · rw [hx] at hh; exact Bool.false_ne_true hh
      · exact hx hmod
    simp only [chainBody]
    rw [hri, hst]
    rw [if_neg hcond, if_neg hcond]
  refine ⟨?_, ?_, fun hmod => hbody st (Or.inr hmod)⟩
  · intro hh
    simp only [sampleChain, sampleChainFrom, runSampleLoop]
    rw [hsr, hri, hst]
    rw [loopGo_congr _ _ _ _ (fun x => hbody x (Or.inl hh))]
  · intro hh hmod
    simp only [chainBody]
    rw [if_pos ⟨hh, hmod⟩]
    exact ⟨_, _, rfl⟩

theorem claim7_amended_witness :
    (sampler0.homogeneous = false →
      sampleChain trivPrims sampler0 (1, 0) =
        sampleChain trivPrims sampler0 (1, 0)) ∧
    (sampler0.homogeneous = true →
      (st0.ns * sampler0.thinning) % sampler0.nproj = 0 →
      ∃ (p : V 1) (r : ℕ), chainBody projPrims sampler0 st0 =
        { prev := projPrims.reproject p
          center := achrCenterUpdate st0.ns (projPrims.reproject st0.center)
            (projPrims.reproject p)
          ns := st0.ns + 1, rng := r }) ∧
    (¬(st0.ns * sampler0.thinning) % sampler0.nproj = 0 →
      chainBody trivPrims sampler0 st0 = chainBody trivPrims sampler0 st0) :=
  claim7_amended projPrims trivPrims trivPrims sampler0 (1, 0) st0
    rfl rfl rfl

theorem lookup_eq_none_of_key_not_mem {A : Type} (a : String)
    (l : List (String × A)) (h : a ∉ l.map Prod.fst) : l.lookup a = none := by
  induction l with
  | nil => rfl
  | cons kv tl ih =>
    obtain ⟨k, v⟩ := kv
    simp only [List.map_cons, List.mem_cons] at h
    push_neg at h
    obtain ⟨h1, h2⟩ := h
    have hbeq : (a == k) = false := beq_eq_false_iff_ne.mpr h1
    simp [List.lookup, hbeq, ih h2]

theorem getstate_lookup_model {A : Type} (dd : List (String × A))
    (hnd : (dd.map Prod.fst).Nodup) : (getstate dd).lookup "model" = none := by
  induction dd with
  | nil => rfl
  | cons kv tl ih =>
    obtain ⟨k, v⟩ := kv
    simp only [List.map_cons, List.nodup_cons] at hnd
    obtain ⟨hk, htl⟩ := hnd
    by_cases hkm : k = "model"
    · subst hkm
      rw [getstate, List.eraseP_cons_of_pos (by simp)]
      exact lookup_eq_none_of_key_not_mem _ _ hk
    · rw [getstate, List.eraseP_cons_of_neg (by simp [hkm])]
      have hbeq : (("model" : String) == k) = false :=
        beq_eq_false_iff_ne.mpr (fun h => hkm h.symm)
      simp only [List.lookup, hbeq]
      exact ih htl

theorem getstate_lookup_other {A : Type} (dd : List (String × A))
    (k' : String) (hk' : k' ≠ "model") :
    (getstate dd).lookup k' = dd.lookup k' := by
  induction dd with
  | nil => rfl
  | cons kv tl ih =>
    obtain ⟨k, v⟩ := kv
    by_cases hkm : k = "model"
    · subst hkm
      rw [getstate, List.eraseP_cons_of_pos (by simp)]
      have hbeq : (k' == "model") = false := beq_eq_false_iff_ne.mpr hk'
      simp only [List.lookup, hbeq]
    · rw [getstate, List.eraseP_cons_of_neg (by simp [hkm])]
      by_cases hk : k' = k
      · subst hk
        simp [List.lookup]
      · have hbeq : (k' == k) = false := beq_eq_false_iff_ne.mpr hk
        simp only [List.lookup, hbeq]
        exact ih

/-- C9: the snapshot `__getstate__` sends to each worker is the attribute
dictionary with exactly the `model` back-reference removed: `model` is
absent from the snapshot, every other attribute is looked up unchanged, and
exactly one entry was dropped. -/
theorem claim9_getstate_drops_model {A : Type} (dd : List (String × A))
    (hnd : (dd.map Prod.fst).Nodup) (hmem : "model" ∈ dd.map Prod.fst) :
    (getstate dd).lookup "model" = none ∧
    (∀ k : String, k ≠ "model" → (getstate dd).lookup k = dd.lookup k) ∧
    (getstate dd).length + 1 = dd.length := by
  refine ⟨getstate_lookup_model dd hnd,
    fun k hk => getstate_lookup_other dd k hk, ?_⟩
  obtain ⟨kv, hkv, hfst⟩ := List.mem_map.mp hmem
  have hlen : (dd.eraseP (fun kv => kv.1 == "model")).length = dd.length - 1 :=
    List.length_eraseP_of_mem hkv (by simp [hfst])
  have hpos : 0 < dd.length :=
    List.length_pos.mpr (List.ne_nil_of_mem hkv)
  rw [getstate, hlen]
  omega

theorem claim9_getstate_drops_model_witness :
    (getstate [("model", (0 : ℕ)), ("x", 1)]).lookup "model" = none ∧
    (getstate [("model", (0 : ℕ)), ("x", 1)]).lookup "x" =
      ([("model", (0 : ℕ)), ("x", 1)]).lookup "x" ∧
    (getstate [("model", (0 : ℕ)), ("x", 1)]).length + 1 = 2 := by
  have h := claim9_getstate_drops_model [("model", (0 : ℕ)), ("x", 1)]
    (by decide) (by decide)
  exact ⟨h.1, h.2.1 "x" (by decide), h.2.2⟩

/-- C8: chain `idx` seeds its stream with exactly
`(base_seed + idx) mod INT32_MAX` where `INT32_MAX = 2^31 - 1`, and the
chain's entire output is a deterministic function of the base seed, the
chain index and the problem data (warmup, thinning, nproj, global count,
center, homogeneity, retries) — in particular it does not depend on the
`processes` field, the only other piece of sampler state. -/
theorem claim8_chain_seeding {d : ℕ} (P : Prims d) (s s' : OptGPSampler d)
    (n idx : ℕ) (hw : s'.warmup = s.warmup) (ht : s'.thinning = s.thinning)
    (hp : s'.nproj = s.nproj) (hns : s'.nSamples = s.nSamples)
    (hr : s'.retries = s.retries) (hc : s'.center = s.center)
    (hsd : s'.seed = s.seed) (hh : s'.homogeneous = s.homogeneous) :
    sampleChain P s (n, idx) =
      sampleChainFrom P s n (P.seedRng ((s.seed + idx) % (2 ^ 31 - 1))) ∧
    (sampleChain P s' (n, idx)).1 = (sampleChain P s (n, idx)).1 := by
  constructor
  · have h31 : (2 : ℕ) ^ 31 - 1 = 2147483647 := by norm_num
    show sampleChainFrom P s n (P.seedRng (chainSeed s.seed idx)) = _
    rw [h31, chainSeed]
  · obtain ⟨w, t, np, nsamp, r, c, sd, hom, proc⟩ := s
    obtain ⟨w', t', np', nsamp', r', c', sd', hom', proc'⟩ := s'
    dsimp only at hw ht hp hns hr hc hsd hh
    subst hw ht hp hns hr hc hsd hh
    rfl

/-- A copy of `sampler83` that differs only in its `processes` field. -/
def sampler83b : OptGPSampler 1 :=
  { sampler83 with processes := 7 }

theorem claim8_chain_seeding_witness :
    sampleChain trivPrims sampler83 (2, 1) =
      sampleChainFrom trivPrims sampler83 2
        (trivPrims.seedRng ((sampler83.seed + 1) % (2 ^ 31 - 1))) ∧
    (sampleChain trivPrims sampler83b (2, 1)).1 =
      (sampleChain trivPrims sampler83 (2, 1)).1 :=
  claim8_chain_seeding trivPrims sampler83 sampler83b 2 1
    rfl rfl rfl rfl rfl rfl rfl rfl

/-- C10: with `processes == 1`, `ConcOptGPSampler.sample(n)` performs no
rounding: it runs one chain (index 0) in the calling process, the returned
rows are exactly that chain's rows, there are exactly `n` of them, and
`n_samples` advances by exactly `n`. -/
theorem claim10_single_process {d : ℕ} (P : Prims d) (s : OptGPSampler d)
    (n : ℕ) (hp : s.processes = 1) (ht : 1 ≤ s.thinning) :
    (optgpSample P s n).1 = (sampleChain P s (n, 0)).1.2 ∧
    (optgpSample P s n).1.length = n ∧
    (optgpSample P s n).2.nSamples = s.nSamples + n := by
  have hnp : ¬(1 < s.processes) := by omega
  refine ⟨?_, ?_, ?_⟩ <;> simp only [optgpSample, if_neg hnp]
  · rw [sampleChain_samples_length P s n 0 ht]

theorem claim10_single_process_witness :
    ((optgpSample trivPrims { sampler83 with processes := 1 } 5).1 =
      (sampleChain trivPrims { sampler83 with processes := 1 } (5, 0)).1.2) ∧
    (optgpSample trivPrims { sampler83 with processes := 1 } 5).1.length = 5 ∧
    (optgpSample trivPrims { sampler83 with processes := 1 } 5).2.nSamples =
      ({ sampler83 with processes := 1 } : OptGPSampler 1).nSamples + 5 :=
  claim10_single_process trivPrims { sampler83 with processes := 1 } 5
    rfl (le_refl 1)

end MassSampling
